import Mathlib

/-!
Verification of the LangSwitch translation system.

Server side (langswitch-core, `TranslationManager` in the unnamed source file):
the persistent store is a JSON document `language → text → translation`.  We
embed JS `Map` / plain-object dictionaries as association lists over `String`
keys; `mapGet` returns the first binding (JS keys are unique) and `mapSet`
updates the first binding in place or appends, mirroring `Map.set` and object
spread semantics.  File I/O is modelled by passing the on-disk store
explicitly: each operation receives the current disk contents and returns the
new memory / disk pair.

Client side (langswitch-react, `Translate.jsx`): the React child tree is a
closed variant type (`RNode`), the module-level session cache is an
association list, and the remote endpoint is an oracle from text to a
`CRemote` response.  The traversal returns, besides the rebuilt tree, the
final session cache, the list of texts actually sent to the endpoint (the
fetch log) and the translation map built during pass 1, so that request
counts and substitution keys are observable in theorems.
-/

/-- JS `Map.get` / object indexing: the first binding for `k`, if any. -/
def mapGet {α : Type} : List (String × α) → String → Option α
  | [], _ => none
  | (k, v) :: rest, k2 => if k = k2 then some v else mapGet rest k2

/-- JS `Map.set` / object-spread assignment: overwrite the first binding for
`k` in place, or append a new binding. -/
def mapSet {α : Type} : List (String × α) → String → α → List (String × α)
  | [], k, v => [(k, v)]
  | (k1, v1) :: rest, k, v =>
    if k1 = k then (k, v) :: rest else (k1, v1) :: mapSet rest k v

/-- First-defined choice on options (`a` wins when present). -/
def orO {α : Type} : Option α → Option α → Option α
  | some v, _ => some v
  | none, b => b

/-- One language bucket: source text → translated text. -/
abbrev LangMap := List (String × String)

/-- The translation store: language code → bucket. -/
abbrev Store := List (String × LangMap)

/-- Two-level lookup in a store. -/
def lookupStore (s : Store) (lang text : String) : Option String :=
  match mapGet s lang with
  | none => none
  | some m => mapGet m text

/-- A store with unique language keys and unique text keys per bucket, as
guaranteed for any JSON-parsed document or JS `Map`. -/
def WFStore (s : Store) : Prop :=
  (s.map Prod.fst).Nodup ∧ ∀ p ∈ s, ((p.2.map Prod.fst).Nodup)

instance (s : Store) : Decidable (WFStore s) := by
  unfold WFStore
  infer_instance

/-- `checkFileUpdates`, inner loop: for each `(text, translation)` pair of the
on-disk bucket, overwrite the in-memory value when it differs
(`if (langMap.get(text) !== translation) langMap.set(text, translation)`). -/
def reconLang : LangMap → LangMap → LangMap
  | m, [] => m
  | m, (t, tr) :: rest =>
    reconLang (if mapGet m t = some tr then m else mapSet m t tr) rest

/-- `TranslationManager.checkFileUpdates`: absorb the on-disk store `file`
into the in-memory store, language by language, creating missing language
buckets (`if (!this.translations.has(lang)) this.translations.set(lang, new
Map())`). -/
def checkFileUpdates : Store → Store → Store
  | mem, [] => mem
  | mem, (lang, texts) :: rest =>
    let mem1 := if (mapGet mem lang).isSome then mem else mapSet mem lang []
    checkFileUpdates (mapSet mem1 lang (reconLang ((mapGet mem1 lang).getD []) texts)) rest

/-- JS object spread `{...a, ...b}` restricted to the bindings of `b`: write
every binding of `b` over `a`, `b` winning on conflicts. -/
def objSpread : LangMap → LangMap → LangMap
  | a, [] => a
  | a, (k, v) :: rest => objSpread (mapSet a k v) rest

/-- Loop of `saveTranslations`: starting from `acc = {...memoryData}`, set
`mergedData[lang] = {...(memoryData[lang] || {}), ...texts}` for every
`(lang, texts)` on disk.  The bucket read `memoryData[lang]` always refers to
the original in-memory data, never to the accumulator. -/
def mergeStoreAux (memory : Store) : Store → Store → Store
  | acc, [] => acc
  | acc, (lang, texts) :: rest =>
    mergeStoreAux memory (mapSet acc lang (objSpread ((mapGet memory lang).getD []) texts)) rest

/-- The merged document computed by `TranslationManager.saveTranslations`. -/
def mergeStore (memory disk : Store) : Store :=
  mergeStoreAux memory memory disk

/-- `TranslationManager.saveTranslations`: read the disk, merge, write the
merged document in full, then `initialize()` reloads memory from the written
file.  Result: `(new memory, new disk)`, both equal to the merged document. -/
def saveTranslations (memory disk : Store) : Store × Store :=
  (mergeStore memory disk, mergeStore memory disk)

/-- `TranslationManager.updateTranslation`: reconcile, create the language
bucket if missing, then write and persist only when the current value is
falsy (absent or the empty string) or `isUserModified` is set. -/
def updateTranslation (memory disk : Store) (text lang translation : String)
    (isUserModified : Bool) : Store × Store :=
  let mem1 := checkFileUpdates memory disk
  let mem2 := if (mapGet mem1 lang).isSome then mem1 else mapSet mem1 lang []
  let langMap := (mapGet mem2 lang).getD []
  let current := mapGet langMap text
  if current.getD "" = "" ∨ isUserModified = true then
    saveTranslations (mapSet mem2 lang (mapSet langMap text translation)) disk
  else
    (mem2, disk)

/-- Outcome of one remote call made by the server manager. -/
inductive RemoteResult where
  | networkFailure
  | response (ok : Bool) (translatedText : Option String)

/-- Errors thrown by `TranslationManager.translateText`. -/
inductive TError where
  | typeErr
  | apiErr
  | invalidResponse
deriving DecidableEq

/-- Full observable outcome of one `translateText` call: result, new memory,
new disk, and how many remote requests were issued. -/
structure TTOutcome where
  result : Except TError String
  memory : Store
  disk : Store
  fetches : Nat

/-- Miss path of `translateText`: one `fetch`.  A rejected fetch is caught and
logged, leaving `response` undefined so that `response.ok` throws a
`TypeError`; a non-ok response throws; a body without a truthy
`translatedText` field (absent or `""`) throws; otherwise the result is
cached via `updateTranslation(text, lang, translatedText)` and returned. -/
def translateMiss (mem2 disk : Store) (text lang : String) (remote : RemoteResult) : TTOutcome :=
  match remote with
  | .networkFailure => { result := .error .typeErr, memory := mem2, disk := disk, fetches := 1 }
  | .response false _ => { result := .error .apiErr, memory := mem2, disk := disk, fetches := 1 }
  | .response true none =>
    { result := .error .invalidResponse, memory := mem2, disk := disk, fetches := 1 }
  | .response true (some t) =>
    if t = "" then
      { result := .error .invalidResponse, memory := mem2, disk := disk, fetches := 1 }
    else
      let p := updateTranslation mem2 disk text lang t false
      { result := .ok t, memory := p.1, disk := p.2, fetches := 1 }

/-- `TranslationManager.translateText`: await init, `checkFileUpdates`, then
`getTranslation` (which reconciles again); a truthy cached value is returned
with no remote call, otherwise the miss path runs. -/
def translateText (memory disk : Store) (text lang : String) (remote : RemoteResult) : TTOutcome :=
  let mem2 := checkFileUpdates (checkFileUpdates memory disk) disk
  match lookupStore mem2 lang text with
  | some c =>
    if c = "" then translateMiss mem2 disk text lang remote
    else { result := .ok c, memory := mem2, disk := disk, fetches := 0 }
  | none => translateMiss mem2 disk text lang remote

/-! ### Lookup lemmas for the association-list primitives -/

theorem mapGet_mapSet_self {α : Type} (m : List (String × α)) (k : String) (v : α) :
    mapGet (mapSet m k v) k = some v := by
  induction m with
  | nil => simp [mapSet, mapGet]
  | cons p rest ih =>
    obtain ⟨k1, v1⟩ := p
    by_cases h : k1 = k
    · simp [mapSet, h, mapGet]
    · simp [mapSet, h, mapGet, ih]

theorem mapGet_mapSet_ne {α : Type} (m : List (String × α)) (k k2 : String) (v : α)
    (h : k ≠ k2) : mapGet (mapSet m k v) k2 = mapGet m k2 := by
  induction m with
  | nil => simp [mapSet, mapGet, h]
  | cons p rest ih =>
    obtain ⟨k1, v1⟩ := p
    by_cases h1 : k1 = k
    · subst h1
      simp [mapSet, mapGet, h]
    · simp [mapSet, h1, mapGet, ih]

theorem mapGet_eq_none_of_not_mem {α : Type} (m : List (String × α)) (k : String)
    (h : k ∉ m.map Prod.fst) : mapGet m k = none := by
  induction m with
  | nil => simp [mapGet]
  | cons p rest ih =>
    obtain ⟨k1, v1⟩ := p
    simp only [List.map_cons, List.mem_cons] at h
    push_neg at h
    simp [mapGet, Ne.symm h.1, ih h.2]

theorem lookupStore_mapSet_self (s : Store) (lang text : String) (b : LangMap) :
    lookupStore (mapSet s lang b) lang text = mapGet b text := by
  simp [lookupStore, mapGet_mapSet_self]

theorem lookupStore_mapSet_ne (s : Store) (l lang text : String) (b : LangMap) (h : l ≠ lang) :
    lookupStore (mapSet s l b) lang text = lookupStore s lang text := by
  simp [lookupStore, mapGet_mapSet_ne _ _ _ _ h]

theorem orO_none_right {α : Type} (a : Option α) : orO a none = a := by
  cases a <;> rfl

theorem orO_assoc_self {α : Type} (a b : Option α) : orO a (orO a b) = orO a b := by
  cases a <;> rfl

/-- Value of `reconLang` at a key, when the disk bucket has unique keys: the
disk value when present, the previous in-memory value otherwise. -/
theorem reconLang_lookup (texts : LangMap) (m : LangMap) (t : String)
    (h : (texts.map Prod.fst).Nodup) :
    mapGet (reconLang m texts) t = orO (mapGet texts t) (mapGet m t) := by
  induction texts generalizing m with
  | nil => simp [reconLang, mapGet, orO]
  | cons p rest ih =>
    obtain ⟨t1, tr1⟩ := p
    simp only [List.map_cons, List.nodup_cons] at h
    rw [reconLang]
    rw [ih _ h.2]
    by_cases he : t1 = t
    · subst he
      have hrest : mapGet rest t1 = none :=
        mapGet_eq_none_of_not_mem rest t1 h.1
      by_cases hv : mapGet m t1 = some tr1
      · simp [mapGet, hrest, hv, orO]
      · simp [mapGet, hrest, hv, orO, mapGet_mapSet_self]
    · have hm : mapGet ((t1, tr1) :: rest) t = mapGet rest t := by
        simp [mapGet, he]
      rw [hm]
      congr 1
      by_cases hv : mapGet m t1 = some tr1
      · rw [if_pos hv]
      · rw [if_neg hv, mapGet_mapSet_ne _ _ _ _ he]

/-- Value of `objSpread` at a key, when `b` has unique keys: `b` wins. -/
theorem objSpread_lookup (b : LangMap) (a : LangMap) (t : String)
    (h : (b.map Prod.fst).Nodup) :
    mapGet (objSpread a b) t = orO (mapGet b t) (mapGet a t) := by
  induction b generalizing a with
  | nil => simp [objSpread, mapGet, orO]
  | cons p rest ih =>
    obtain ⟨t1, tr1⟩ := p
    simp only [List.map_cons, List.nodup_cons] at h
    rw [objSpread, ih _ h.2]
    by_cases he : t1 = t
    · subst he
      have hrest : mapGet rest t1 = none :=
        mapGet_eq_none_of_not_mem rest t1 h.1
      simp [mapGet, hrest, orO, mapGet_mapSet_self]
    · have hm : mapGet ((t1, tr1) :: rest) t = mapGet rest t := by
        simp [mapGet, he]
      rw [hm, mapGet_mapSet_ne _ _ _ _ he]

/-- Master lemma for reconciliation: after `checkFileUpdates`, the value at
any `(lang, text)` is the on-disk value when the disk holds one, and the
previous in-memory value otherwise. -/
theorem lookup_checkFileUpdates (file : Store) (mem : Store) (lang text : String)
    (hwf : WFStore file) :
    lookupStore (checkFileUpdates mem file) lang text =
      orO (lookupStore file lang text) (lookupStore mem lang text) := by
  induction file generalizing mem with
  | nil => simp [checkFileUpdates, lookupStore, mapGet, orO]
  | cons p rest ih =>
    obtain ⟨l, texts⟩ := p
    obtain ⟨hnd, hbuckets⟩ := hwf
    simp only [List.map_cons, List.nodup_cons] at hnd
    have hrest : WFStore rest := ⟨hnd.2, fun q hq => hbuckets q (List.mem_cons_of_mem _ hq)⟩
    have htexts : (texts.map Prod.fst).Nodup := hbuckets (l, texts) (List.mem_cons_self _ _)
    rw [checkFileUpdates]
    have hstep : ∀ lang2 text2,
        lookupStore
          (mapSet (if (mapGet mem l).isSome then mem else mapSet mem l []) l
            (reconLang
              ((mapGet (if (mapGet mem l).isSome then mem else mapSet mem l []) l).getD [])
              texts)) lang2 text2 =
          if l = lang2 then orO (mapGet texts text2) (lookupStore mem l text2)
          else lookupStore mem lang2 text2 := by
      intro lang2 text2
      cases hmm : mapGet mem l with
      | some b =>
        simp only [hmm, Option.isSome_some, if_true, Option.getD_some]
        by_cases he : l = lang2
        · subst he
          rw [lookupStore_mapSet_self, reconLang_lookup _ _ _ htexts]
          simp [lookupStore, hmm]
        · rw [lookupStore_mapSet_ne _ _ _ _ _ he, if_neg he]
      | none =>
        simp only [hmm, Option.isSome_none, Bool.false_eq_true, if_false,
          mapGet_mapSet_self, Option.getD_some]
        by_cases he : l = lang2
        · subst he
          rw [lookupStore_mapSet_self, reconLang_lookup _ _ _ htexts]
          simp [lookupStore, hmm, mapGet]
        · rw [lookupStore_mapSet_ne _ _ _ _ _ he, lookupStore_mapSet_ne _ _ _ _ _ he, if_neg he]
    rw [ih _ hrest]
    by_cases he : l = lang
    · subst he
      have hrestlook : lookupStore rest l text = none := by
        simp [lookupStore, mapGet_eq_none_of_not_mem rest l hnd.1]
      rw [hrestlook, hstep l text, if_pos rfl]
      have hfile : lookupStore ((l, texts) :: rest) l text = mapGet texts text := by
        simp [lookupStore, mapGet]
      rw [hfile]
      cases mapGet texts text <;> simp [orO]
    · rw [hstep lang text, if_neg he]
      have hfile : lookupStore ((l, texts) :: rest) lang text = lookupStore rest lang text := by
        simp [lookupStore, mapGet, he]
      rw [hfile]

/-- Master lemma for the persist merge: the merged document holds, at each
`(lang, text)`, the on-disk value when the disk holds one, and the in-memory
value otherwise — the disk wins on conflicting keys. -/
theorem lookup_mergeStoreAux (disk : Store) (memory acc : Store) (lang text : String)
    (hwf : WFStore disk) :
    lookupStore (mergeStoreAux memory acc disk) lang text =
      match mapGet disk lang with
      | some ts => orO (mapGet ts text) (lookupStore memory lang text)
      | none => lookupStore acc lang text := by
  induction disk generalizing acc with
  | nil => simp [mergeStoreAux, mapGet]
  | cons p rest ih =>
    obtain ⟨l, ts⟩ := p
    obtain ⟨hnd, hbuckets⟩ := hwf
    simp only [List.map_cons, List.nodup_cons] at hnd
    have hrest : WFStore rest := ⟨hnd.2, fun q hq => hbuckets q (List.mem_cons_of_mem _ hq)⟩
    have hts : (ts.map Prod.fst).Nodup := hbuckets (l, ts) (List.mem_cons_self _ _)
    rw [mergeStoreAux, ih _ hrest]
    by_cases he : l = lang
    · subst he
      have hrestl : mapGet rest l = none := mapGet_eq_none_of_not_mem rest l hnd.1
      rw [hrestl]
      have hhead : mapGet ((l, ts) :: rest) l = some ts := by simp [mapGet]
      rw [hhead]
      simp only []
      rw [lookupStore_mapSet_self, objSpread_lookup _ _ _ hts]
      congr 1
      cases hm : mapGet memory l <;> simp [lookupStore, hm, mapGet]
    · have hhead : mapGet ((l, ts) :: rest) lang = mapGet rest lang := by
        simp [mapGet, he]
      rw [hhead]
      cases hr : mapGet rest lang
      · simp only []
        rw [lookupStore_mapSet_ne _ _ _ _ _ he]
      · rfl

/-- The merge written by `saveTranslations`, per key. -/
theorem lookup_mergeStore (memory disk : Store) (lang text : String) (hwf : WFStore disk) :
    lookupStore (mergeStore memory disk) lang text =
      orO (lookupStore disk lang text) (lookupStore memory lang text) := by
  rw [mergeStore, lookup_mergeStoreAux disk memory memory lang text hwf]
  cases hd : mapGet disk lang
  · simp [lookupStore, hd, orO]
  · simp [lookupStore, hd]

/-- Wherever the disk already holds a value for `(lang, text)`, any
`updateTranslation` call leaves that value in the persisted store: either the
write is suppressed, or the persist merge lets the disk win. -/
theorem updateTranslation_disk_persists (m d : Store) (text lang v : String) (umod : Bool)
    (hwf : WFStore d) (w : String) (hw : lookupStore d lang text = some w) :
    lookupStore (updateTranslation m d text lang v umod).2 lang text = some w := by
  simp only [updateTranslation, saveTranslations]
  split
  all_goals split
  all_goals dsimp only
  any_goals exact hw
  all_goals rw [lookup_mergeStore _ _ _ _ hwf, hw]
  all_goals rfl

/-- C1: counterexample.  With `{es:{"hi":"hola"}}` on disk,
`updateTranslation("hi","es","bonjour",isUserModified=true)` ends with both
the in-memory cache and the persisted store holding `"hola"`, not the new
translation `"bonjour"`: the claim that the call overwrites any existing
value unconditionally is false when the on-disk file held a different value. -/
theorem updateTranslation_userWins_cx :
    lookupStore (updateTranslation [] [("es", [("hi", "hola")])] "hi" "es" "bonjour" true).1
        "es" "hi" = some "hola" ∧
    lookupStore (updateTranslation [] [("es", [("hi", "hola")])] "hi" "es" "bonjour" true).2
        "es" "hi" = some "hola" ∧
    ¬ lookupStore (updateTranslation [] [("es", [("hi", "hola")])] "hi" "es" "bonjour" true).2
        "es" "hi" = some "bonjour" := by
  refine ⟨by decide, by decide, by decide⟩

/-- C1: amended claim.  `updateTranslation` with `isUserModified = true`
always takes the write branch and persists, but the persist merge gives
same-keyed on-disk entries precedence over the in-memory write; so the new
translation ends up in the cache and the store exactly when the on-disk file
held no value for `(lang, text)` at the time of the call, and when the file
held `w` both the cache and the store end holding `w`. -/
theorem updateTranslation_userWins_amended (mem disk : Store) (text lang v : String)
    (hwf : WFStore disk) :
    (lookupStore disk lang text = none →
      lookupStore (updateTranslation mem disk text lang v true).1 lang text = some v ∧
      lookupStore (updateTranslation mem disk text lang v true).2 lang text = some v) ∧
    (∀ w, lookupStore disk lang text = some w →
      lookupStore (updateTranslation mem disk text lang v true).1 lang text = some w ∧
      lookupStore (updateTranslation mem disk text lang v true).2 lang text = some w) := by
  constructor
  · intro h0
    simp only [updateTranslation, saveTranslations, or_true, if_true]
    constructor <;>
    · rw [lookup_mergeStore _ _ _ _ hwf, h0, lookupStore_mapSet_self, mapGet_mapSet_self]
      rfl
  · intro w hw
    have h2 := updateTranslation_disk_persists mem disk text lang v true hwf w hw
    refine ⟨?_, h2⟩
    simp only [updateTranslation, saveTranslations, or_true, if_true] at h2 ⊢
    exact h2

/-- C1: witness for the amended claim at a concrete input where the disk has
no entry for the key. -/
theorem updateTranslation_userWins_amended_witness :
    WFStore [("es", [("x", "y")])] ∧
    lookupStore (updateTranslation [] [("es", [("x", "y")])] "hi" "es" "bonjour" true).1
        "es" "hi" = some "bonjour" ∧
    lookupStore (updateTranslation [] [("es", [("x", "y")])] "hi" "es" "bonjour" true).2
        "es" "hi" = some "bonjour" :=
  ⟨by decide,
    (updateTranslation_userWins_amended [] [("es", [("x", "y")])] "hi" "es" "bonjour"
      (by decide)).1 (by decide)⟩

/-- C2: counterexample.  On a conflicting key the persist merge lets the disk
win, not the in-memory store: with disk `{fr:{"a":"x"}}` and memory
`{fr:{"a":"y"}}`, the written store holds `"x"`. -/
theorem saveTranslations_memPrecedence_cx :
    lookupStore (saveTranslations [("fr", [("a", "y")])] [("fr", [("a", "x")])]).2
        "fr" "a" = some "x" ∧
    ¬ lookupStore (saveTranslations [("fr", [("a", "y")])] [("fr", [("a", "x")])]).2
        "fr" "a" = some "y" := by
  refine ⟨by decide, by decide⟩

/-- C2: amended claim.  The document written by a persist is, per language,
the flat union of the on-disk and in-memory maps in which keys present ON
DISK take precedence over same-keyed in-memory entries, while keys present
only in memory are preserved (and the reloaded in-memory store equals the
written one). -/
theorem saveTranslations_merge_amended (mem disk : Store) (lang text : String)
    (hwf : WFStore disk) :
    lookupStore (saveTranslations mem disk).2 lang text =
      orO (lookupStore disk lang text) (lookupStore mem lang text) ∧
    (saveTranslations mem disk).1 = (saveTranslations mem disk).2 :=
  ⟨lookup_mergeStore mem disk lang text hwf, rfl⟩

/-- C2: witness, the disjoint-key example from the claim: disk
`{fr:{"a":"x"}}`, memory `{fr:{"b":"y"}}`; after the persist the store holds
both entries. -/
theorem saveTranslations_merge_amended_witness :
    WFStore [("fr", [("a", "x")])] ∧
    lookupStore (saveTranslations [("fr", [("b", "y")])] [("fr", [("a", "x")])]).2
        "fr" "a" = some "x" ∧
    lookupStore (saveTranslations [("fr", [("b", "y")])] [("fr", [("a", "x")])]).2
        "fr" "b" = some "y" :=
  ⟨by decide,
    ((saveTranslations_merge_amended [("fr", [("b", "y")])] [("fr", [("a", "x")])] "fr" "a"
        (by decide)).1).trans (by decide),
    ((saveTranslations_merge_amended [("fr", [("b", "y")])] [("fr", [("a", "x")])] "fr" "b"
        (by decide)).1).trans (by decide)⟩

/-- C6: `updateTranslation` with `isUserModified = false` writes nothing when
the value present after reconciliation is non-empty: the call returns the
reconciled memory and the unchanged disk, performing no save. -/
theorem updateTranslation_automated_suppressed (mem disk : Store) (text lang v t : String)
    (h1 : lookupStore (checkFileUpdates mem disk) lang text = some t) (h2 : t ≠ "") :
    updateTranslation mem disk text lang v false = (checkFileUpdates mem disk, disk) := by
  have hb : ∃ bucket, mapGet (checkFileUpdates mem disk) lang = some bucket ∧
      mapGet bucket text = some t := by
    unfold lookupStore at h1
    cases hg : mapGet (checkFileUpdates mem disk) lang with
    | none => rw [hg] at h1; simp at h1
    | some b => rw [hg] at h1; exact ⟨b, rfl, h1⟩
  obtain ⟨bucket, hg, hbt⟩ := hb
  simp only [updateTranslation, hg, Option.isSome_some, if_true, Option.getD_some, hbt]
  rw [if_neg (by simp [h2])]

/-- C6: witness, the claim's concrete scenario: on-disk `{es:{"hi":"hola"}}`,
automated upsert of `"buenos"`; the write is suppressed and the stored value
stays `"hola"`. -/
theorem updateTranslation_automated_suppressed_witness :
    lookupStore (checkFileUpdates [] [("es", [("hi", "hola")])]) "es" "hi" = some "hola" ∧
    updateTranslation [] [("es", [("hi", "hola")])] "hi" "es" "buenos" false =
      (checkFileUpdates [] [("es", [("hi", "hola")])], [("es", [("hi", "hola")])]) ∧
    lookupStore (updateTranslation [] [("es", [("hi", "hola")])] "hi" "es" "buenos" false).2
        "es" "hi" = some "hola" :=
  ⟨by decide,
    updateTranslation_automated_suppressed [] [("es", [("hi", "hola")])] "hi" "es" "buenos"
      "hola" (by decide) (by decide),
    by decide⟩

/-- C10: reconciliation never removes an entry — every `(lang, text)` present
in memory before `checkFileUpdates` is still present after it — and when the
entry was deleted from the on-disk file, a subsequent persist writes the
in-memory value back to disk. -/
theorem checkFileUpdates_noRemoval (mem file : Store) (lang text v : String)
    (hwf : WFStore file) (h : lookupStore mem lang text = some v) :
    (∃ v2, lookupStore (checkFileUpdates mem file) lang text = some v2) ∧
    (lookupStore file lang text = none →
      lookupStore (checkFileUpdates mem file) lang text = some v ∧
      lookupStore (saveTranslations (checkFileUpdates mem file) file).2 lang text = some v) := by
  have hc := lookup_checkFileUpdates file mem lang text hwf
  constructor
  · cases hf : lookupStore file lang text with
    | none => exact ⟨v, by rw [hc, h, hf]; rfl⟩
    | some w => exact ⟨w, by rw [hc, hf]; rfl⟩
  · intro hf
    have hcfu : lookupStore (checkFileUpdates mem file) lang text = some v := by
      rw [hc, hf, h]; rfl
    refine ⟨hcfu, ?_⟩
    unfold saveTranslations
    rw [lookup_mergeStore _ _ _ _ hwf, hf, hcfu]
    rfl

/-- C10: witness.  Memory holds `{es:{"hi":"hola"}}`, the file was edited to
drop the entry; reconciliation keeps it and the persist writes it back. -/
theorem checkFileUpdates_noRemoval_witness :
    WFStore [("es", [("other", "x")])] ∧
    lookupStore [("es", [("hi", "hola")])] "es" "hi" = some "hola" ∧
    lookupStore (checkFileUpdates [("es", [("hi", "hola")])] [("es", [("other", "x")])])
        "es" "hi" = some "hola" ∧
    lookupStore
        (saveTranslations
          (checkFileUpdates [("es", [("hi", "hola")])] [("es", [("other", "x")])])
          [("es", [("other", "x")])]).2 "es" "hi" = some "hola" :=
  ⟨by decide, by decide,
    ((checkFileUpdates_noRemoval [("es", [("hi", "hola")])] [("es", [("other", "x")])]
        "es" "hi" "hola" (by decide) (by decide)).2 (by decide)).1,
    ((checkFileUpdates_noRemoval [("es", [("hi", "hola")])] [("es", [("other", "x")])]
        "es" "hi" "hola" (by decide) (by decide)).2 (by decide)).2⟩

/-- Whether a `translateText` outcome is a thrown error. -/
def isErr : Except TError String → Bool
  | .error _ => true
  | .ok _ => false

/-- C4: cache behaviour of `translateText`.  (1) If the reconciled cache
holds a non-empty translation `t`, the call returns `t` with zero remote
requests, and an immediate second call also returns `t` with zero remote
requests.  (2) If the on-disk store holds the empty string for the key, the
call issues a remote request and the disk still holds the empty string
afterwards, so every subsequent invocation issues a remote request again. -/
theorem translateText_cacheHit (mem disk : Store) (text lang : String) (r1 r2 : RemoteResult)
    (hwf : WFStore disk) :
    (∀ t, lookupStore (checkFileUpdates mem disk) lang text = some t → t ≠ "" →
      (translateText mem disk text lang r1).result = .ok t ∧
      (translateText mem disk text lang r1).fetches = 0 ∧
      (translateText (translateText mem disk text lang r1).memory
          (translateText mem disk text lang r1).disk text lang r2).result = .ok t ∧
      (translateText (translateText mem disk text lang r1).memory
          (translateText mem disk text lang r1).disk text lang r2).fetches = 0) ∧
    (lookupStore disk lang text = some "" →
      (translateText mem disk text lang r1).fetches = 1 ∧
      lookupStore (translateText mem disk text lang r1).disk lang text = some "") := by
  have hC : ∀ m : Store, lookupStore (checkFileUpdates m disk) lang text =
      orO (lookupStore disk lang text) (lookupStore m lang text) :=
    fun m => lookup_checkFileUpdates disk m lang text hwf
  constructor
  · intro t ht htne
    have hDt : orO (lookupStore disk lang text) (some t) = some t := by
      cases hD : lookupStore disk lang text with
      | none => rfl
      | some d =>
        rw [hC, hD] at ht
        simp only [orO] at ht
        rw [ht]
        rfl
    have h2 : lookupStore (checkFileUpdates (checkFileUpdates mem disk) disk) lang text =
        some t := by
      rw [hC, ht]
      exact hDt
    have e1 : translateText mem disk text lang r1 =
        { result := .ok t, memory := checkFileUpdates (checkFileUpdates mem disk) disk,
          disk := disk, fetches := 0 } := by
      simp only [translateText, h2]
      rw [if_neg htne]
    have h3 : lookupStore
        (checkFileUpdates
          (checkFileUpdates (checkFileUpdates (checkFileUpdates mem disk) disk) disk) disk)
        lang text = some t := by
      rw [hC, hC, h2, orO_assoc_self]
      exact hDt
    have e2 : translateText (checkFileUpdates (checkFileUpdates mem disk) disk) disk
        text lang r2 =
        { result := .ok t,
          memory := checkFileUpdates
            (checkFileUpdates (checkFileUpdates (checkFileUpdates mem disk) disk) disk) disk,
          disk := disk, fetches := 0 } := by
      simp only [translateText, h3]
      rw [if_neg htne]
    rw [e1]
    exact ⟨rfl, rfl, by rw [e2], by rw [e2]⟩
  · intro h0
    have hm2 : lookupStore (checkFileUpdates (checkFileUpdates mem disk) disk) lang text =
        some "" := by
      rw [hC, h0]
      rfl
    simp only [translateText, hm2]
    rw [if_pos trivial]
    cases r1 with
    | networkFailure => exact ⟨rfl, h0⟩
    | response ok tt =>
      cases ok with
      | false => exact ⟨rfl, h0⟩
      | true =>
        cases tt with
        | none => exact ⟨rfl, h0⟩
        | some t =>
          simp only [translateMiss]
          split
          · exact ⟨rfl, h0⟩
          · exact ⟨rfl, updateTranslation_disk_persists _ _ _ _ _ _ hwf "" h0⟩

/-- C4: witness.  A cache hit on `"hola"` returns it with zero requests, and
an empty-string entry on disk forces a request with the empty entry kept. -/
theorem translateText_cacheHit_witness :
    (translateText [] [("es", [("hi", "hola")])] "hi" "es" .networkFailure).result =
      .ok "hola" ∧
    (translateText [] [("es", [("hi", "hola")])] "hi" "es" .networkFailure).fetches = 0 ∧
    (translateText [] [("es", [("hi", "")])] "hi" "es" .networkFailure).fetches = 1 ∧
    lookupStore (translateText [] [("es", [("hi", "")])] "hi" "es" .networkFailure).disk
      "es" "hi" = some "" :=
  have ha := (translateText_cacheHit [] [("es", [("hi", "hola")])] "hi" "es"
    .networkFailure .networkFailure (by decide)).1 "hola" (by decide) (by decide)
  have hb := (translateText_cacheHit [] [("es", [("hi", "")])] "hi" "es"
    .networkFailure .networkFailure (by decide)).2 (by decide)
  ⟨ha.1, ha.2.1, hb.1, hb.2⟩

/-- C5: when the remote call fails (network failure, non-ok response, or a
well-formed response lacking the translated-text field), `translateText`
propagates an error, the persisted store is untouched, and the in-memory
cache is exactly the reconciled cache — in particular, when the cache was
already in sync with the disk it is literally unchanged. -/
theorem translateText_failure_noWrite (mem disk : Store) (text lang : String)
    (r : RemoteResult) (hwf : WFStore disk)
    (hmiss : (lookupStore (checkFileUpdates mem disk) lang text).getD "" = "")
    (hfail : r = .networkFailure ∨ (∃ b, r = .response false b) ∨ r = .response true none) :
    isErr (translateText mem disk text lang r).result = true ∧
    (translateText mem disk text lang r).disk = disk ∧
    (translateText mem disk text lang r).memory =
      checkFileUpdates (checkFileUpdates mem disk) disk ∧
    (checkFileUpdates mem disk = mem → (translateText mem disk text lang r).memory = mem) := by
  have hC : ∀ m : Store, lookupStore (checkFileUpdates m disk) lang text =
      orO (lookupStore disk lang text) (lookupStore m lang text) :=
    fun m => lookup_checkFileUpdates disk m lang text hwf
  have hcol : lookupStore (checkFileUpdates (checkFileUpdates mem disk) disk) lang text =
      lookupStore (checkFileUpdates mem disk) lang text := by
    rw [hC, hC, orO_assoc_self]
  have hmiss2 : (lookupStore (checkFileUpdates (checkFileUpdates mem disk) disk)
      lang text).getD "" = "" := by
    rw [hcol]
    exact hmiss
  have hmissE : translateText mem disk text lang r =
      translateMiss (checkFileUpdates (checkFileUpdates mem disk) disk) disk text lang r := by
    cases hm : lookupStore (checkFileUpdates (checkFileUpdates mem disk) disk) lang text with
    | none => simp only [translateText, hm]
    | some c =>
      rw [hm] at hmiss2
      simp only [Option.getD_some] at hmiss2
      simp only [translateText, hm]
      rw [if_pos hmiss2]
  rw [hmissE]
  have hrec : ∀ h : checkFileUpdates mem disk = mem,
      checkFileUpdates (checkFileUpdates mem disk) disk = mem := by
    intro h
    rw [h]
    exact h
  rcases hfail with h | ⟨b, h⟩ | h <;> subst h
  · exact ⟨rfl, rfl, rfl, fun h => hrec h⟩
  · exact ⟨rfl, rfl, rfl, fun h => hrec h⟩
  · exact ⟨rfl, rfl, rfl, fun h => hrec h⟩

/-- C5: witness at an empty store and a network failure: the call errors and
neither store is modified. -/
theorem translateText_failure_noWrite_witness :
    isErr (translateText [] [] "Hi" "es" RemoteResult.networkFailure).result = true ∧
    (translateText [] [] "Hi" "es" RemoteResult.networkFailure).disk = [] ∧
    (translateText [] [] "Hi" "es" RemoteResult.networkFailure).memory = [] :=
  have h := translateText_failure_noWrite [] [] "Hi" "es" .networkFailure
    (by decide) (by decide) (Or.inl rfl)
  ⟨h.1, h.2.1, h.2.2.2 (by decide)⟩

/-! ### Client side: `Translate.jsx` -/

/-- JS `String.prototype.trim`: strip whitespace from both ends. -/
def jsTrim (s : String) : String :=
  String.mk (((s.data.dropWhile Char.isWhitespace).reverse.dropWhile Char.isWhitespace).reverse)

/-- A node of the React child tree: a string leaf, an element (with the
presence of the `ignore` prop, its type and remaining props abstracted as
`tag`, and its children), or any other renderable (number, null, ...). -/
inductive RNode where
  | text (s : String)
  | elem (ignoreProp : Bool) (tag : String) (children : List RNode)
  | other

/-- The module-level session cache of `Translate.jsx`: cache key → translation. -/
abbrev SCache := List (String × String)

/-- Pass-1 translation map: trimmed text → result of `translateText` (which
can be `undefined` when the response lacked the field, hence the inner
`Option`). -/
abbrev TMap := List (String × Option String)

/-- Outcome of one client-side `fetch` of the translation endpoint. -/
inductive CRemote where
  | reject
  | resp (ok : Bool) (translatedText : Option String)

/-- `TranslationManager.getCacheKey` (client): `` `${text}:${targetLang}` ``. -/
def getCacheKey (text targetLang : String) : String :=
  text ++ ":" ++ targetLang

/-- The fetch path of the client `translateText`: a rejected fetch is
rethrown by the catch block; a non-ok response falls back to the original
text; a truthy `translatedText` is cached and returned; a falsy one
(absent or `""`) is returned uncached.  The third component logs the texts
for which a request was actually issued. -/
def clientFetch (cache : SCache) (text lang : String) (r : CRemote) :
    Except Unit (Option String) × SCache × List String :=
  match r with
  | .reject => (.error (), cache, [text])
  | .resp false _ => (.ok (some text), cache, [text])
  | .resp true none => (.ok none, cache, [text])
  | .resp true (some t) =>
    if t = "" then (.ok (some ""), cache, [text])
    else (.ok (some t), mapSet cache (getCacheKey text lang) t, [text])

/-- Client `translateText`: return a truthy session-cache hit without a
request, otherwise fetch. -/
def clientTranslateText (cache : SCache) (text lang : String) (r : CRemote) :
    Except Unit (Option String) × SCache × List String :=
  match mapGet cache (getCacheKey text lang) with
  | some e => if e = "" then clientFetch cache text lang r else (.ok (some e), cache, [])
  | none => clientFetch cache text lang r

/-- JS truthiness of `node.props.children`: falsy when there are no children
or when the single child is the empty string. -/
def childrenTruthy : List RNode → Bool
  | [] => false
  | [.text ""] => false
  | _ => true

mutual
/-- Pass 1 of `traverseAndTranslate` (`collectTranslations`): queue every
string leaf as `(trimmed text, depth)`; skip `ignore`-marked elements with
their whole subtree; recurse into truthy children at `depth + 1`; ignore
any other node kind. -/
def collectTranslations : RNode → Nat → List (String × Nat)
  | .text s, depth => [(jsTrim s, depth)]
  | .elem ig _ cs, depth =>
    if ig then [] else if childrenTruthy cs then collectList cs (depth + 1) else []
  | .other, _ => []

/-- `React.Children.forEach` over a child list during pass 1. -/
def collectList : List RNode → Nat → List (String × Nat)
  | [], _ => []
  | c :: cs, depth => collectTranslations c depth ++ collectList cs depth
end

/-- The full queue collected from the root children (each root at depth 0). -/
def collectQueue (children : List RNode) : List (String × Nat) :=
  collectList children 0

/-- Stable insertion for the depth sort: place `x` after every element of
strictly smaller depth and before the first element of greater-or-equal
depth, preserving the original order of equal depths. -/
def insertQ (x : String × Nat) : List (String × Nat) → List (String × Nat)
  | [] => [x]
  | y :: ys => if y.2 < x.2 then y :: insertQ x ys else x :: y :: ys

/-- The stable ascending-by-depth sort applied to the queue
(`translationQueue.sort((a, b) => a.depth - b.depth)`). -/
def sortByDepth : List (String × Nat) → List (String × Nat)
  | [] => []
  | x :: xs => insertQ x (sortByDepth xs)

/-- The pass-1 loop populating `translationMap`: walk the sorted queue, and
for each text not yet in the map call the client `translateText`; a thrown
error aborts the whole traversal (the session cache keeps the updates made
before the throw).  Returns the translation map, the final session cache
and the concatenated fetch log. -/
def buildMap (lang : String) :
    List (String × Nat) → TMap → SCache → (String → CRemote) →
      Except SCache (TMap × SCache × List String)
  | [], tmap, cache, _ => .ok (tmap, cache, [])
  | (t, _) :: rest, tmap, cache, ora =>
    if (mapGet tmap t).isSome then buildMap lang rest tmap cache ora
    else
      match clientTranslateText cache t lang (ora t) with
      | (.error _, cacheE, _) => .error cacheE
      | (.ok v, cache2, log1) =>
        match buildMap lang rest (mapSet tmap t v) cache2 ora with
        | .error c => .error c
        | .ok (tmapF, cacheF, log2) => .ok (tmapF, cacheF, log1 ++ log2)

/-- Pass-2 substitution of one string:
`translationMap.get(node.trim()) || node`. -/
def substStr (tmap : TMap) (s : String) : String :=
  match mapGet tmap (jsTrim s) with
  | some (some v) => if v = "" then s else v
  | some none => s
  | none => s

mutual
/-- Pass 2 (`applyTranslations`): substitute string leaves by trimmed-key
lookup, return `ignore`-marked elements unchanged, rebuild other elements —
a single string child is substituted directly, otherwise each child is
rebuilt recursively; falsy children are left untouched. -/
def applyT (tmap : TMap) : RNode → RNode
  | .text s => .text (substStr tmap s)
  | .elem true tag cs => .elem true tag cs
  | .elem false tag cs =>
    if childrenTruthy cs then
      match cs with
      | [.text s] => .elem false tag [.text (substStr tmap s)]
      | _ => .elem false tag (applyTList tmap cs)
    else .elem false tag cs
  | .other => .other

/-- `React.Children.map` over a child list during pass 2. -/
def applyTList (tmap : TMap) : List RNode → List RNode
  | [] => []
  | c :: cs => applyT tmap c :: applyTList tmap cs
end

/-- `traverseAndTranslate`: collect, sort, build the translation map, then
rebuild the tree.  On a thrown error the traversal rejects (carrying the
session cache as it stood).  The translation map is returned alongside so
that substitution keys are observable. -/
def traverseAndTranslate (children : List RNode) (lang : String) (cache : SCache)
    (ora : String → CRemote) :
    Except SCache (List RNode × SCache × List String × TMap) :=
  match buildMap lang (sortByDepth (collectQueue children)) [] cache ora with
  | .error c => .error c
  | .ok (tmap, cache2, log) => .ok (applyTList tmap children, cache2, log, tmap)

/-- The visible outcome of the `Translate` component's `performTranslation`:
either the rebuilt tree is rendered, or the error state replaces the output
with the failure indicator. -/
inductive CompState where
  | success (content : List RNode)
  | errorState

/-- `performTranslation` of the `Translate` component: render the rebuilt
tree on success; on a thrown error set the error state. -/
def performTranslation (children : List RNode) (lang : String) (cache : SCache)
    (ora : String → CRemote) : CompState × SCache :=
  match traverseAndTranslate children lang cache ora with
  | .ok (out, c2, _, _) => (.success out, c2)
  | .error c => (.errorState, c)

/-- Effect-relevant state of one `Translate` instance: the previously
committed dependency pair of the `useEffect` (children reference identity ×
lang) and `prevChildrenRef.current` (a children reference identity).
Reference identity of a children value is modelled by a numeric id. -/
structure TState where
  prevDeps : Option (Nat × String)
  prevRef : Option Nat

/-- One render of `Translate` with children reference `childrenId` and
target `lang`: React runs the effect only when the `[children, lang]`
dependency pair changed; the effect then updates `prevChildrenRef` and
starts a translation pass only when the children reference changed
(`if (!hasChildrenChanged) return`).  Returns the new state and whether a
translation pass was started. -/
def renderStep (s : TState) (childrenId : Nat) (lang : String) : TState × Bool :=
  if s.prevDeps = some (childrenId, lang) then (s, false)
  else
    ({ prevDeps := some (childrenId, lang), prevRef := some childrenId },
      decide (s.prevRef ≠ some childrenId))

/-! ### Client-side lemmas -/

theorem getCacheKey_inj (t1 t2 lang : String) (h : getCacheKey t1 lang = getCacheKey t2 lang) :
    t1 = t2 := by
  unfold getCacheKey at h
  have hd := congrArg String.data h
  simp only [String.data_append] at hd
  exact String.ext (List.append_cancel_right (List.append_cancel_right hd))

theorem insertQ_perm (x : String × Nat) (l : List (String × Nat)) :
    List.Perm (insertQ x l) (x :: l) := by
  induction l with
  | nil => exact List.Perm.refl _
  | cons y ys ih =>
    by_cases h : y.2 < x.2
    · rw [insertQ, if_pos h]
      exact (List.Perm.cons y ih).trans (List.Perm.swap x y ys)
    · rw [insertQ, if_neg h]

theorem sortByDepth_perm (l : List (String × Nat)) : List.Perm (sortByDepth l) l := by
  induction l with
  | nil => exact List.Perm.refl _
  | cons x xs ih =>
    rw [sortByDepth]
    exact (insertQ_perm x (sortByDepth xs)).trans (List.Perm.cons x ih)

theorem sortByDepth_mem_fst (q : List (String × Nat)) (t : String) :
    t ∈ (sortByDepth q).map Prod.fst ↔ t ∈ q.map Prod.fst :=
  ((sortByDepth_perm q).map Prod.fst).mem_iff

/-- The per-text behaviour of the endpoint assumed by the dedup and fallback
theorems: for each text, either the call succeeds with the non-empty
translation `f t`, or it returns a non-ok response, in which case the client
falls back to the original text (`f t = t`). -/
def OraGood (ora : String → CRemote) (f : String → String) (t : String) : Prop :=
  (ora t = .resp true (some (f t)) ∧ f t ≠ "") ∨ (∃ b, ora t = .resp false b ∧ f t = t)

/-- Main loop invariant of pass 1: starting from a translation map and a
session cache that only hold values of shape `f`, `buildMap` succeeds, its
translation map gains exactly the queued texts with values `f t`, and its
fetch log lists each newly fetched text exactly once. -/
theorem buildMap_ok (lang : String) (ora : String → CRemote) (f : String → String)
    (H : ∀ t, OraGood ora f t) :
    ∀ (q : List (String × Nat)) (tmap : TMap) (cache : SCache),
    (∀ t, mapGet tmap t = none → mapGet cache (getCacheKey t lang) = none) →
    (∀ t x, mapGet tmap t = some x → x = some (f t)) →
    ∃ tmapF cacheF log,
      buildMap lang q tmap cache ora = .ok (tmapF, cacheF, log) ∧
      (∀ t x, mapGet tmap t = some x → mapGet tmapF t = some x) ∧
      (∀ t, t ∈ q.map Prod.fst → mapGet tmapF t = some (some (f t))) ∧
      log.Nodup ∧
      (∀ t, t ∈ log ↔ (t ∈ q.map Prod.fst ∧ mapGet tmap t = none)) := by
  intro q
  induction q with
  | nil =>
    intro tmap cache _ _
    refine ⟨tmap, cache, [], rfl, fun t x h => h, by simp, List.nodup_nil, by simp⟩
  | cons p rest ih =>
    obtain ⟨t, d⟩ := p
    intro tmap cache I1 I2
    cases hscr : mapGet tmap t with
    | some x0 =>
      obtain ⟨tmapF, cacheF, log, hok, hmono, hq, hnd, hlog⟩ := ih tmap cache I1 I2
      refine ⟨tmapF, cacheF, log, ?_, hmono, ?_, hnd, ?_⟩
      · simp only [buildMap, hscr, Option.isSome_some, if_true]
        exact hok
      · intro t2 ht2
        simp only [List.map_cons, List.mem_cons] at ht2
        rcases ht2 with h | h
        · subst h
          have hx : x0 = some (f t2) := I2 t2 x0 hscr
          subst hx
          exact hmono t2 (some (f t2)) hscr
        · exact hq t2 h
      · intro t2
        rw [hlog t2]
        constructor
        · rintro ⟨h1, h2⟩
          exact ⟨by simp [List.mem_cons, h1], h2⟩
        · rintro ⟨h1, h2⟩
          simp only [List.map_cons, List.mem_cons] at h1
          rcases h1 with h1 | h1
          · subst h1
            rw [hscr] at h2
            exact absurd h2 (by simp)
          · exact ⟨h1, h2⟩
    | none =>
      have hmiss := I1 t hscr
      obtain ⟨cache2, hct, hc2⟩ :
          ∃ cache2, clientTranslateText cache t lang (ora t) =
              (.ok (some (f t)), cache2, [t]) ∧
            ∀ t2, t2 ≠ t →
              mapGet cache2 (getCacheKey t2 lang) = mapGet cache (getCacheKey t2 lang) := by
        rcases H t with ⟨hor, hfne⟩ | ⟨b, hor, hft⟩
        · refine ⟨mapSet cache (getCacheKey t lang) (f t), ?_, ?_⟩
          · simp only [clientTranslateText, hmiss, clientFetch, hor]
            rw [if_neg hfne]
          · intro t2 hne
            exact mapGet_mapSet_ne _ _ _ _
              (fun hk => hne ((getCacheKey_inj t t2 lang hk) ▸ rfl))
        · refine ⟨cache, ?_, fun t2 _ => rfl⟩
          simp only [clientTranslateText, hmiss, clientFetch, hor, hft]
      have I1b : ∀ t2, mapGet (mapSet tmap t (some (f t))) t2 = none →
          mapGet cache2 (getCacheKey t2 lang) = none := by
        intro t2 h2
        have hne : t2 ≠ t := by
          intro he
          subst he
          rw [mapGet_mapSet_self] at h2
          exact absurd h2 (by simp)
        rw [hc2 t2 hne]
        apply I1
        rw [← mapGet_mapSet_ne tmap t t2 (some (f t)) (Ne.symm hne)]
        exact h2
      have I2b : ∀ t2 x, mapGet (mapSet tmap t (some (f t))) t2 = some x → x = some (f t2) := by
        intro t2 x h2
        by_cases hne : t = t2
        · subst hne
          rw [mapGet_mapSet_self] at h2
          injection h2 with h2
          exact h2.symm
        · rw [mapGet_mapSet_ne tmap t t2 (some (f t)) hne] at h2
          exact I2 t2 x h2
      obtain ⟨tmapF, cacheF, log, hok, hmono, hq, hnd, hlog⟩ :=
        ih (mapSet tmap t (some (f t))) cache2 I1b I2b
      have htF : mapGet tmapF t = some (some (f t)) :=
        hmono t (some (f t)) (mapGet_mapSet_self tmap t (some (f t)))
      have htnotlog : t ∉ log := by
        intro hmem
        have := (hlog t).mp hmem
        rw [mapGet_mapSet_self] at this
        exact absurd this.2 (by simp)
      refine ⟨tmapF, cacheF, t :: log, ?_, ?_, ?_, List.Nodup.cons htnotlog hnd, ?_⟩
      · simp only [buildMap, hscr, Option.isSome_none, Bool.false_eq_true, if_false]
        rw [hct]
        simp only [hok, List.singleton_append]
      · intro t2 x h2
        have hne : t ≠ t2 := by
          intro he
          subst he
          rw [hscr] at h2
          exact absurd h2 (by simp)
        apply hmono
        rw [mapGet_mapSet_ne tmap t t2 (some (f t)) hne]
        exact h2
      · intro t2 ht2
        simp only [List.map_cons, List.mem_cons] at ht2
        rcases ht2 with h | h
        · subst h
          exact htF
        · exact hq t2 h
      · intro t2
        simp only [List.mem_cons, List.map_cons]
        by_cases hne : t2 = t
        · subst hne
          constructor
          · intro _
            exact ⟨Or.inl rfl, hscr⟩
          · intro _
            exact Or.inl rfl
        · rw [hlog t2]
          rw [mapGet_mapSet_ne tmap t t2 (some (f t)) (Ne.symm hne)]
          constructor
          · rintro (h | ⟨h1, h2⟩)
            · exact absurd h hne
            · exact ⟨Or.inr h1, h2⟩
          · rintro ⟨h1 | h1, h2⟩
            · exact absurd h1 hne
            · exact Or.inr ⟨h1, h2⟩

/-- C7: deduplication.  With a fresh session cache and an endpoint returning
the non-empty translation `g t` for every text: the traversal never fails,
each unique trimmed text of the collected queue appears exactly once in the
fetch log (and texts not in the queue never appear), the translation map
assigns every queued text the single value `g t`, and substitution of any
string leaf is keyed purely by its trimmed text, yielding the identical
translated value `g (jsTrim s)` for every occurrence. -/
theorem tree_dedup (children : List RNode) (lang : String) (g : String → String)
    (hg : ∀ s, g s ≠ "") :
    (∀ c, traverseAndTranslate children lang [] (fun s => CRemote.resp true (some (g s))) ≠
      .error c) ∧
    (∀ out cacheF log tmap,
      traverseAndTranslate children lang [] (fun s => CRemote.resp true (some (g s))) =
        .ok (out, cacheF, log, tmap) →
      out = applyTList tmap children ∧
      (∀ t, t ∈ (collectQueue children).map Prod.fst → log.count t = 1) ∧
      (∀ t, t ∉ (collectQueue children).map Prod.fst → log.count t = 0) ∧
      (∀ t, t ∈ (collectQueue children).map Prod.fst → mapGet tmap t = some (some (g t))) ∧
      (∀ s, jsTrim s ∈ (collectQueue children).map Prod.fst →
        applyT tmap (.text s) = .text (g (jsTrim s)))) := by
  have H : ∀ t, OraGood (fun s => CRemote.resp true (some (g s))) g t :=
    fun t => Or.inl ⟨rfl, hg t⟩
  obtain ⟨tmapF, cacheF0, log0, hok, hmono, hq, hnd, hlog⟩ :=
    buildMap_ok lang _ g H (sortByDepth (collectQueue children)) [] []
      (fun t _ => rfl) (fun t x h => by simp [mapGet] at h)
  have htr : traverseAndTranslate children lang [] (fun s => CRemote.resp true (some (g s))) =
      .ok (applyTList tmapF children, cacheF0, log0, tmapF) := by
    simp only [traverseAndTranslate, hok]
  constructor
  · intro c hc
    rw [htr] at hc
    exact absurd hc (by simp)
  · intro out cacheF log tmap heq
    rw [htr] at heq
    simp only [Except.ok.injEq, Prod.mk.injEq] at heq
    obtain ⟨ho, hc, hl, ht⟩ := heq
    subst ho hc hl ht
    refine ⟨rfl, ?_, ?_, ?_, ?_⟩
    · intro t htq
      have hmem : t ∈ log0 := (hlog t).mpr ⟨(sortByDepth_mem_fst _ t).mpr htq, rfl⟩
      exact List.count_eq_one_of_mem hnd hmem
    · intro t htq
      have hnot : t ∉ log0 := fun hm => htq ((sortByDepth_mem_fst _ t).mp ((hlog t).mp hm).1)
      exact List.count_eq_zero_of_not_mem hnot
    · intro t htq
      exact hq t ((sortByDepth_mem_fst _ t).mpr htq)
    · intro s hs
      have hv := hq (jsTrim s) ((sortByDepth_mem_fst _ _).mpr hs)
      simp [applyT, substStr, hv, hg (jsTrim s)]

/-- C7: witness.  A tree with `"Hello"` in three places (twice as a direct
leaf — once with surrounding whitespace — and once nested in an element)
issues exactly one request for `"Hello"` and every occurrence is replaced by
the identical `"Hola"`. -/
theorem tree_dedup_witness :
    traverseAndTranslate
        [RNode.text "Hello", RNode.elem false "div" [RNode.text "Hello"],
          RNode.text " Hello "] "es" [] (fun _ => CRemote.resp true (some "Hola")) =
      .ok ([RNode.text "Hola", RNode.elem false "div" [RNode.text "Hola"],
          RNode.text "Hola"], [(getCacheKey "Hello" "es", "Hola")], ["Hello"],
        [("Hello", some "Hola")]) ∧
    (["Hello"] : List String).count "Hello" = 1 := by
  have h1 : jsTrim "Hello" = "Hello" := by decide
  have h2 : jsTrim " Hello " = "Hello" := by decide
  have heq : traverseAndTranslate
      [RNode.text "Hello", RNode.elem false "div" [RNode.text "Hello"],
        RNode.text " Hello "] "es" [] (fun _ => CRemote.resp true (some "Hola")) =
      .ok ([RNode.text "Hola", RNode.elem false "div" [RNode.text "Hola"],
          RNode.text "Hola"], [(getCacheKey "Hello" "es", "Hola")], ["Hello"],
        [("Hello", some "Hola")]) := by
    simp [traverseAndTranslate, collectQueue, collectList, collectTranslations,
      childrenTruthy, h1, h2, sortByDepth, insertQ, buildMap, clientTranslateText,
      clientFetch, mapGet, mapSet, applyTList, applyT, substStr]
  refine ⟨heq, ?_⟩
  have hc := (tree_dedup
    [RNode.text "Hello", RNode.elem false "div" [RNode.text "Hello"], RNode.text " Hello "]
    "es" (fun _ => "Hola") (fun _ => (by decide : ("Hola" : String) ≠ ""))).2 _ _ _ _ heq
  exact hc.2.1 "Hello" (by simp [collectQueue, collectList, collectTranslations,
    childrenTruthy, h1, h2])

/-- C3: counterexample.  A transport-level failure (rejected fetch) is
rethrown by the client `translateText` catch block, so the whole traversal
rejects instead of falling back to the original text, and the `Translate`
component enters the error state. -/
theorem clientTranslate_failure_cx :
    traverseAndTranslate [RNode.text "Hi"] "es" [] (fun _ => CRemote.reject) =
      .error [] ∧
    (performTranslation [RNode.text "Hi"] "es" [] (fun _ => CRemote.reject)).1 =
      CompState.errorState := by
  have h : traverseAndTranslate [RNode.text "Hi"] "es" [] (fun _ => CRemote.reject) =
      .error [] := by
    simp [traverseAndTranslate, collectQueue, collectList, collectTranslations, sortByDepth,
      insertQ, buildMap, clientTranslateText, clientFetch, mapGet]
  exact ⟨h, by simp [performTranslation, h]⟩

/-- C3: amended claim.  When the remote call fails with a non-ok HTTP
response, the client `translateText` falls back to returning the text it was
called with: the traversal succeeds, every queued (trimmed) text maps to
itself, a string leaf is rendered untranslated — as its trimmed text, since
the fallback returns the trimmed queue key — and the component does not
enter the error state.  A transport-level failure (rejected fetch), however,
is rethrown — the traversal fails and the component does enter the error
state (see the counterexample). -/
theorem clientTranslate_failure_amended (children : List RNode) (lang : String)
    (bb : String → Option String) :
    (∀ c, traverseAndTranslate children lang [] (fun s => CRemote.resp false (bb s)) ≠
      .error c) ∧
    (∀ out cacheF log tmap,
      traverseAndTranslate children lang [] (fun s => CRemote.resp false (bb s)) =
        .ok (out, cacheF, log, tmap) →
      out = applyTList tmap children ∧
      (∀ t, t ∈ (collectQueue children).map Prod.fst → mapGet tmap t = some (some t)) ∧
      (∀ s, jsTrim s ∈ (collectQueue children).map Prod.fst →
        applyT tmap (.text s) = .text (if jsTrim s = "" then s else jsTrim s))) ∧
    (performTranslation children lang [] (fun s => CRemote.resp false (bb s))).1 ≠
      CompState.errorState := by
  have H : ∀ t, OraGood (fun s => CRemote.resp false (bb s)) (fun t => t) t :=
    fun t => Or.inr ⟨bb t, rfl, rfl⟩
  obtain ⟨tmapF, cacheF0, log0, hok, hmono, hq, hnd, hlog⟩ :=
    buildMap_ok lang _ (fun t => t) H (sortByDepth (collectQueue children)) [] []
      (fun t _ => rfl) (fun t x h => by simp [mapGet] at h)
  have htr : traverseAndTranslate children lang [] (fun s => CRemote.resp false (bb s)) =
      .ok (applyTList tmapF children, cacheF0, log0, tmapF) := by
    simp only [traverseAndTranslate, hok]
  refine ⟨?_, ?_, ?_⟩
  · intro c hc
    rw [htr] at hc
    exact absurd hc (by simp)
  · intro out cacheF log tmap heq
    rw [htr] at heq
    simp only [Except.ok.injEq, Prod.mk.injEq] at heq
    obtain ⟨ho, hc, hl, ht⟩ := heq
    subst ho hc hl ht
    refine ⟨rfl, ?_, ?_⟩
    · intro t htq
      exact hq t ((sortByDepth_mem_fst _ t).mpr htq)
    · intro s hs
      have hv := hq (jsTrim s) ((sortByDepth_mem_fst _ _).mpr hs)
      by_cases hz : jsTrim s = ""
      · rw [hz] at hv
        simp [applyT, substStr, hz, hv]
      · simp [applyT, substStr, hv, hz]
  · simp only [performTranslation, htr]
    simp

/-- C3: witness for the amended claim: one leaf, a non-ok response; the tree
renders with the leaf untranslated and the component is not in error state. -/
theorem clientTranslate_failure_amended_witness :
    traverseAndTranslate [RNode.text "Hi"] "es" [] (fun _ => CRemote.resp false none) =
      .ok ([RNode.text "Hi"], [], ["Hi"], [("Hi", some "Hi")]) ∧
    (performTranslation [RNode.text "Hi"] "es" [] (fun _ => CRemote.resp false none)).1 ≠
      CompState.errorState ∧
    applyT [("Hi", some "Hi")] (RNode.text "Hi") = RNode.text "Hi" := by
  have h1 : jsTrim "Hi" = "Hi" := by decide
  have heq : traverseAndTranslate [RNode.text "Hi"] "es" []
      (fun _ => CRemote.resp false none) =
      .ok ([RNode.text "Hi"], [], ["Hi"], [("Hi", some "Hi")]) := by
    simp [traverseAndTranslate, collectQueue, collectList, collectTranslations, h1,
      sortByDepth, insertQ, buildMap, clientTranslateText, clientFetch, mapGet, mapSet,
      applyTList, applyT, substStr]
  have hthm := clientTranslate_failure_amended [RNode.text "Hi"] "es" (fun _ => none)
  have hsub := (hthm.2.1 _ _ _ _ heq).2.2 "Hi" (by
    simp [collectQueue, collectList, collectTranslations, h1])
  refine ⟨heq, hthm.2.2, ?_⟩
  rw [hsub]
  simp [h1]

theorem collectList_append (a b : List RNode) (d : Nat) :
    collectList (a ++ b) d = collectList a d ++ collectList b d := by
  induction a with
  | nil => simp [collectList]
  | cons c cs ih => simp [collectList, ih]

theorem applyTList_append (tmap : TMap) (a b : List RNode) :
    applyTList tmap (a ++ b) = applyTList tmap a ++ applyTList tmap b := by
  induction a with
  | nil => simp [applyTList]
  | cons c cs ih => simp [applyTList, ih]

/-- C8: ignore passthrough.  An element carrying the `ignore` prop
contributes nothing to the collection pass (for any depth and regardless of
its subtree), is returned identically — the same node, subtree untouched —
by the rebuild pass, its presence anywhere among the roots leaves the
collected queue (hence the set of translation requests) exactly as if it
were absent, and any successful traversal returns it unchanged in place. -/
theorem ignore_passthrough (tag : String) (cs : List RNode) :
    (∀ d, collectTranslations (.elem true tag cs) d = []) ∧
    (∀ tmap, applyT tmap (.elem true tag cs) = .elem true tag cs) ∧
    (∀ pre post, collectQueue (pre ++ .elem true tag cs :: post) = collectQueue (pre ++ post)) ∧
    (∀ pre post lang cache ora out cF log tmap,
      traverseAndTranslate (pre ++ .elem true tag cs :: post) lang cache ora =
        .ok (out, cF, log, tmap) →
      out = applyTList tmap pre ++ .elem true tag cs :: applyTList tmap post) := by
  have hcol : ∀ d, collectTranslations (.elem true tag cs) d = [] := by
    intro d
    simp [collectTranslations]
  have happ : ∀ tmap, applyT tmap (.elem true tag cs) = .elem true tag cs := by
    intro tmap
    simp [applyT]
  refine ⟨hcol, happ, ?_, ?_⟩
  · intro pre post
    unfold collectQueue
    rw [collectList_append, collectList_append]
    simp [collectList, hcol]
  · intro pre post lang cache ora out cF log tmap heq
    unfold traverseAndTranslate at heq
    cases hbm : buildMap lang
        (sortByDepth (collectQueue (pre ++ RNode.elem true tag cs :: post))) [] cache ora with
    | error c =>
      rw [hbm] at heq
      exact absurd heq (by simp)
    | ok trip =>
      obtain ⟨tm, c2, lg⟩ := trip
      rw [hbm] at heq
      simp only [Except.ok.injEq, Prod.mk.injEq] at heq
      obtain ⟨ho, hc, hl, ht⟩ := heq
      subst ht
      rw [← ho, applyTList_append]
      simp [applyTList, happ]

/-- C8: witness at a concrete ignore-marked subtree. -/
theorem ignore_passthrough_witness :
    collectTranslations (RNode.elem true "span" [RNode.text "Hello"]) 0 = [] ∧
    applyT [("Hello", some "Hola")] (RNode.elem true "span" [RNode.text "Hello"]) =
      RNode.elem true "span" [RNode.text "Hello"] ∧
    collectQueue [RNode.elem true "span" [RNode.text "Hello"]] = collectQueue [] :=
  have h := ignore_passthrough "span" [RNode.text "Hello"]
  ⟨h.1 0, h.2.1 [("Hello", some "Hola")], by
    have h3 := h.2.2.1 [] []
    simpa using h3⟩

/-- C9: the code at the claim's scenario.  Mounting with children reference
`7` and language `"en"` triggers a translation pass; re-rendering with the
same children reference and the new language `"es"` runs the effect (the
dependency pair changed, as witnessed by the updated committed deps) but the
`hasChildrenChanged` guard returns early, so no translation pass is
triggered — contrary to the claim that a language-only change retriggers
translation. -/
theorem langOnlyChange_noRetrigger :
    (renderStep ⟨none, none⟩ 7 "en").2 = true ∧
    (renderStep (renderStep ⟨none, none⟩ 7 "en").1 7 "es").2 = false ∧
    (renderStep (renderStep ⟨none, none⟩ 7 "en").1 7 "es").1.prevDeps = some (7, "es") := by
  refine ⟨by decide, by decide, by decide⟩
